import Mathlib

/-!
Verification of the dependency / execution-flow analyzer and the
cross-workflow call-graph builder of the `gha-doc` repository.

Part A embeds `WorkflowAnalyzer._analyze_job_dependencies` and
`WorkflowAnalyzer._generate_execution_flow` from `src/analyzer.py`.
Part B embeds `extract_called_workflows`, `build_workflow_call_graph`
and `find_roots_and_orphans` from `src/main.py`.

Python dictionaries are embedded as association lists (`List (key × value)`)
whose key lists are `Nodup`; Python sets are embedded as duplicate-free
lists, with membership the only observable. Iteration order of a Python
`set` is implementation-defined, so functions that iterate over a set are
parametrized by (or proved for every) enumeration order where that order
is observable.
-/

namespace GhaDoc

/-- Shape of the `needs` value of a job, as found in the parsed YAML:
absent, a single string, a list of strings, or any other YAML shape. -/
inductive Needs where
  | absent : Needs
  | str (s : String) : Needs
  | list (l : List String) : Needs
  | other : Needs
deriving DecidableEq

/-- Normalization of a `needs` value performed by
`WorkflowAnalyzer._analyze_job_dependencies` (analyzer.py lines 42-50):
a string becomes a one-element list, a list is kept as is, anything
else (absent defaults to `[]`, or a non-str non-list value) becomes `[]`. -/
def normalizeNeeds : Needs → List String
  | .absent => []
  | .str s => [s]
  | .list l => l
  | .other => []

/-- Embedding of `WorkflowAnalyzer._analyze_job_dependencies`
(analyzer.py lines 37-52): one entry per job of the job table, the value
being the job's normalized `needs`. The function is total: every `Needs`
shape, including malformed ones (`Needs.other`), yields an entry. -/
def analyze_job_dependencies (jobs : List (String × Needs)) :
    List (String × List String) :=
  jobs.map (fun p => (p.1, normalizeNeeds p.2))

/-- Embedding of `graph = {job_id: set(deps) for job_id, deps in
self._analyze_job_dependencies().items()}` (analyzer.py line 146):
each dependency list becomes a set (`dedup`). -/
def graphBase (ds : List (String × List String)) :
    List (String × List String) :=
  ds.map (fun p => (p.1, p.2.dedup))

/-- Embedding of analyzer.py lines 149-155: the identifiers that appear in
some dependency set but are not keys of the dependency map. -/
def graphExtra (ds : List (String × List String)) : List String :=
  ((graphBase ds).map Prod.snd).flatten.dedup.filter
    (fun d => ! ((graphBase ds).map Prod.fst).contains d)

/-- Embedding of the graph construction at the top of
`WorkflowAnalyzer._generate_execution_flow` (analyzer.py lines 146-155):
every identifier that appears in some dependency set but is not a key is
added as a key with an empty dependency set. -/
def buildGraph (ds : List (String × List String)) :
    List (String × List String) :=
  graphBase ds ++ (graphExtra ds).map (fun d => (d, []))

/-- Lexicographic comparison of character lists by code point — Python's
comparison order on strings, used by `sorted(list(level))`. -/
def lexLe : List Char → List Char → Bool
  | [], _ => true
  | _ :: _, [] => false
  | a :: as, b :: bs =>
    if a = b then lexLe as bs else decide (a.val.toNat < b.val.toNat)

/-- Python's `<=` on strings: lexicographic by code point. -/
def strLe (a b : String) : Bool := lexLe a.data b.data

/-- Embedding of Python's `sorted` on a duplicate-free list of strings. -/
def pySorted (l : List String) : List String :=
  List.insertionSort (fun a b => strLe a b = true) l

/-- Lookup `graph[job]` in the embedded graph; jobs looked up by the
algorithm are always keys, the default `[]` is never observed. -/
def getDeps (g : List (String × List String)) (j : String) : List String :=
  match g.find? (fun p => p.1 == j) with
  | some p => p.2
  | none => []

/-- The ready set of one iteration of the while-loop of
`WorkflowAnalyzer._generate_execution_flow` (analyzer.py line 163,
`level` in the source): every remaining node none of whose dependencies
is still remaining. -/
def readyOf (g : List (String × List String)) (rem : List String) :
    List String :=
  rem.filter (fun j => ! (getDeps g j).any (fun d => rem.contains d))

/-- One level of `WorkflowAnalyzer._generate_execution_flow`
(analyzer.py lines 163-168): the ready set, or — when it is empty, i.e. a
dependency cycle — the first element of the remaining set's iteration
order, forcibly taken as a singleton level (`next(iter(remaining))` in the
source, whose choice of element is implementation-defined). -/
def levelOf (g : List (String × List String)) (rem : List String) :
    List String :=
  if (readyOf g rem).isEmpty then rem.take 1 else readyOf g rem

/-- Fuel-indexed embedding of the while-loop of
`WorkflowAnalyzer._generate_execution_flow` (analyzer.py lines 157-173):
each iteration appends the sorted current level and removes its members
from the remaining set. Every iteration removes at least one node, so fuel
`rem.length` makes the fuel-exhaustion branch unreachable. -/
def levelsGo (g : List (String × List String)) :
    Nat → List String → List (List String)
  | _, [] => []
  | 0, _ :: _ => []
  | fuel + 1, h :: t =>
      pySorted (levelOf g (h :: t)) ::
        levelsGo g fuel
          ((h :: t).filter (fun j => ! (levelOf g (h :: t)).contains j))

/-- The leveling loop run to completion on a remaining set enumerated as
`rem`: fuel `rem.length` suffices because each iteration removes at least
one element. -/
def levelsAux (g : List (String × List String)) (rem : List String) :
    List (List String) :=
  levelsGo g rem.length rem

/-- The dependency graph that `WorkflowAnalyzer._generate_execution_flow`
builds from the job table (analyzer.py lines 146-155). -/
def graphOf (jobs : List (String × Needs)) : List (String × List String) :=
  buildGraph (analyze_job_dependencies jobs)

/-- The node set of that graph (`graph.keys()`), in construction order. -/
def graphNodes (jobs : List (String × Needs)) : List String :=
  (graphOf jobs).map Prod.fst

/-- Embedding of `WorkflowAnalyzer._generate_execution_flow`
(analyzer.py lines 143-173), composed with
`WorkflowAnalyzer._analyze_job_dependencies` as in the source. The initial
remaining set `set(graph.keys())` is enumerated in graph-key order (one
admissible iteration order of the Python set). -/
def generate_execution_flow (jobs : List (String × Needs)) :
    List (List String) :=
  levelsAux (graphOf jobs) (graphNodes jobs)

/-!  Concrete job tables used by witnesses and counterexamples. -/

/-- Scenario A of the spec: a linear chain. -/
def jobsA : List (String × Needs) :=
  [("A", .list []), ("B", .list ["A"]), ("C", .list ["A", "B"])]

/-- Scenario C of the spec: an undeclared dependency target `Z`. -/
def jobsC : List (String × Needs) :=
  [("A", .list []), ("B", .str "Z")]

/-- Scenario B of the spec: a two-cycle. -/
def jobsCycle : List (String × Needs) :=
  [("A", .str "B"), ("B", .str "A")]

/-- The dependency graph of the two-cycle table. -/
def cycleGraph : List (String × List String) := graphOf jobsCycle

/-- A job table referencing an identifier that is not a key. -/
def jobsRef : List (String × Needs) := [("a", .str "b")]

/-- A job table exercising all four `needs` shapes. -/
def jobsShapes : List (String × Needs) :=
  [("a", .absent), ("b", .str "a"), ("c", .list ["a", "a", "b"]), ("d", .other)]

/-- Specification-side normalization of a `needs` value to a set of
identifiers, following the spec's words: absent → empty set; single
string → one-element set; sequence → set of its elements (duplicates
collapse); any other shape → empty set. Used to compare the source's
list-valued dependency map against the spec's set semantics. -/
def needsSetSpec : Needs → Finset String
  | .absent => ∅
  | .str s => {s}
  | .list l => l.toFinset
  | .other => ∅

/-!
Part B: the cross-workflow call-graph builder of `src/main.py`.

`parse_workflow_file` (main.py lines 265-286) reads the filesystem or the
network, so it is modelled as an oracle `String → ParseOutcome`. Its three
observable outcomes, traced through the source: a successful parse (whose
only uses in `build_workflow_call_graph` are being stored in the `parsed`
registry and being handed to `extract_called_workflows`, so the parsed
data is abstracted to its extracted call set); a `None` return (remote
fetch with non-200 status, `fetch_remote_workflow` main.py lines 255-263);
and a raised exception (`WorkflowParser.parse` re-raises on any read or
YAML error, parser.py lines 70-72), which propagates.
-/

/-- Outcome of one `parse_workflow_file` call for a reference. -/
inductive ParseOutcome where
  | ok (calls : List String) : ParseOutcome
  | fetchFail : ParseOutcome
  | raised : ParseOutcome
deriving DecidableEq

/-- State threaded through `build_workflow_call_graph`
(main.py lines 288-314): the `parsed` registry, the `call_graph`
(a `defaultdict(set)`), plus two ghost observations — the ordered log of
references handed to `parse_workflow_file`, and the number of expansion
rounds whose bodies ran. -/
structure CGState where
  parsed : List (String × List String)
  graph : List (String × List String)
  attempts : List String
  rounds : Nat
deriving DecidableEq

/-- Python `key in dict` on an embedded dictionary. -/
def hasKey (m : List (String × List String)) (k : String) : Bool :=
  m.any (fun p => p.1 == k)

/-- Python `set.update`: add the new elements not already present. -/
def setAdd (old new : List String) : List String :=
  old ++ (new.filter (fun x => ! old.contains x)).dedup

/-- Python `call_graph[k].update(v)` on a `defaultdict(set)`: merge into
the existing entry, or create the key (even when `v` is empty). -/
def graphAdd (g : List (String × List String)) (k : String)
    (v : List String) : List (String × List String) :=
  if hasKey g k then g.map (fun p => if p.1 == k then (p.1, setAdd p.2 v) else p)
  else g ++ [(k, setAdd [] v)]

/-- Python `call_graph[k]` read on a key (`defaultdict` default `set()`
for a missing key, never observed on the paths modelled here). -/
def lookupGraph (g : List (String × List String)) (k : String) :
    List String :=
  match g.find? (fun p => p.1 == k) with
  | some p => p.2
  | none => []

/-- Embedding of the initial loop of `build_workflow_call_graph`
(main.py lines 292-298): parse every discovered file; a falsy result is
skipped, a successful parse is recorded in the registry and its extracted
calls merged into the call graph; a raised parse error propagates. -/
def initLoop (parse : String → ParseOutcome) :
    List String → CGState → Except Unit CGState
  | [], st => .ok st
  | wf :: rest, st =>
    match parse wf with
    | .raised => .error ()
    | .fetchFail => initLoop parse rest { st with attempts := st.attempts ++ [wf] }
    | .ok calls =>
        initLoop parse rest
          { st with
            parsed := st.parsed ++ [(wf, calls)]
            graph := graphAdd st.graph wf calls
            attempts := st.attempts ++ [wf] }

/-- Embedding of the inner loop `for called in list(calls)`
(main.py lines 304-311): a call target already in the registry is skipped;
otherwise it is parsed, and on success recorded, its own calls merged into
the call graph, and added to this round's `new_calls`. -/
def procCalls (parse : String → ParseOutcome) :
    List String → CGState → List String → Except Unit (CGState × List String)
  | [], st, news => .ok (st, news)
  | c :: rest, st, news =>
    if hasKey st.parsed c then procCalls parse rest st news
    else
      match parse c with
      | .raised => .error ()
      | .fetchFail =>
          procCalls parse rest { st with attempts := st.attempts ++ [c] } news
      | .ok calls =>
          procCalls parse rest
            { st with
              parsed := st.parsed ++ [(c, calls)]
              graph := graphAdd st.graph c calls
              attempts := st.attempts ++ [c] }
            (setAdd news calls)

/-- Embedding of `for wf in list(call_graph.keys())` (main.py line 303):
the round iterates over a snapshot of the keys, reading each key's current
call set when it is reached. -/
def procKeys (parse : String → ParseOutcome) :
    List String → CGState → List String → Except Unit (CGState × List String)
  | [], st, news => .ok (st, news)
  | wf :: rest, st, news =>
    match procCalls parse (lookupGraph st.graph wf) st news with
    | .error e => .error e
    | .ok r => procKeys parse rest r.1 r.2

/-- Embedding of `for _ in range(5): ...; if not new_calls: break`
(main.py lines 301-313): up to five expansion rounds, stopping early once
a round's `new_calls` is empty. The ghost `rounds` field counts executed
round bodies. -/
def roundsGo (parse : String → ParseOutcome) :
    Nat → CGState → Except Unit CGState
  | 0, st => .ok st
  | n + 1, st =>
    match procKeys parse (st.graph.map Prod.fst) st [] with
    | .error e => .error e
    | .ok r =>
      if r.2.isEmpty then .ok { r.1 with rounds := r.1.rounds + 1 }
      else roundsGo parse n { r.1 with rounds := r.1.rounds + 1 }

/-- Embedding of `build_workflow_call_graph` (main.py lines 288-314). -/
def build_workflow_call_graph (parse : String → ParseOutcome)
    (workflow_files : List String) : Except Unit CGState :=
  match initLoop parse workflow_files ⟨[], [], [], 0⟩ with
  | .error e => .error e
  | .ok st => roundsGo parse 5 st

/-- The `all_called` set of `find_roots_and_orphans` (main.py lines
318-320): the union of every call set of the call graph. -/
def allCalledOf (call_graph : List (String × List String)) : List String :=
  (call_graph.map Prod.snd).flatten

/-- The `roots` list of `find_roots_and_orphans` (main.py line 321). -/
def rootsOf (call_graph : List (String × List String))
    (workflow_files : List String) : List String :=
  workflow_files.filter (fun wf => ! (allCalledOf call_graph).contains wf)

/-- The `orphans` list of `find_roots_and_orphans` (main.py line 322). -/
def orphansOf (call_graph : List (String × List String))
    (workflow_files : List String) : List String :=
  (call_graph.map Prod.fst).filter
    (fun wf => ! (allCalledOf call_graph).contains wf &&
      ! (rootsOf call_graph workflow_files).contains wf)

/-- Embedding of `find_roots_and_orphans` (main.py lines 316-323). -/
def find_roots_and_orphans (call_graph : List (String × List String))
    (workflow_files : List String) : List String × List String :=
  (rootsOf call_graph workflow_files, orphansOf call_graph workflow_files)

/-- Test whether the first list starts with the second (Python
`str.startswith`, over code points). -/
def startsB : List Char → List Char → Bool
  | _, [] => true
  | [], _ :: _ => false
  | a :: as, b :: bs => a = b && startsB as bs

/-- Python `str.startswith`. -/
def pyStartsWith (s pre : String) : Bool := startsB s.data pre.data

/-- Python `str.endswith`. -/
def pyEndsWith (s post : String) : Bool :=
  startsB s.data.reverse post.data.reverse

/-- Python `str.rstrip(c)`: remove trailing occurrences of `c`. -/
def pyRstrip (s : String) (c : Char) : String :=
  ⟨(s.data.reverse.dropWhile (fun x => x = c)).reverse⟩

/-- Fuel-indexed splitter behind Python `str.split(sep)` for a non-empty
separator: cut at each occurrence of `sep`, scanning left to right. Fuel
`l.length` suffices since every step consumes at least one character. -/
def pySplitGo (sep : List Char) :
    Nat → List Char → List Char → List (List Char)
  | _, [], acc => [acc.reverse]
  | 0, l, acc => [acc.reverse ++ l]
  | fuel + 1, c :: rest, acc =>
    if sep.isEmpty = false && startsB (c :: rest) sep then
      acc.reverse :: pySplitGo sep fuel ((c :: rest).drop sep.length) []
    else pySplitGo sep fuel rest (c :: acc)

/-- Python `str.split(sep)` for a non-empty separator. -/
def pySplit (s sep : String) : List String :=
  (pySplitGo sep.data s.data.length s.data []).map (fun l => ⟨l⟩)

/-- Joining with a separator (used to express Python's `split(sep, 1)`
through the full split). -/
def joinSep (sep : String) : List String → String
  | [] => ""
  | [x] => x
  | x :: rest => x ++ sep ++ joinSep sep rest

/-- Python `str.split(sep, 1)` when the caller unpacks the result into two
names (main.py line 236): `some (before, after)` at the first occurrence
of `sep`; `none` when `sep` does not occur, where the source's tuple
unpacking raises `ValueError`. -/
def splitOnce (s sep : String) : Option (String × String) :=
  match pySplit s sep with
  | [] => none
  | [_] => none
  | x :: rest => some (x, joinSep sep rest)

/-- Classification of one job's `uses` string by `extract_called_workflows`
(main.py lines 231-252), producing the `called` entry it adds, if any.
The two stdlib path resolutions `os.path.normpath(os.path.join(workdir, ·))`
and `os.path.normpath(os.path.join(current_workflow_dir, ·))` are external
collaborators, abstracted as the oracles `resolveWorkdir` / `resolveCurdir`.
`.error` marks the `ValueError` raised by unpacking a separator-free
`split` result. -/
def classifyUses (resolveWorkdir resolveCurdir : String → String)
    (uses : String) : Except Unit (Option String) :=
  if pyEndsWith uses ".yml" then
    if uses.data.contains '/' && decide (3 ≤ uses.data.count '/') &&
        uses.data.contains '@' then
      match splitOnce uses ".github/workflows/" with
      | none => .error ()
      | some (repoPart, rest) =>
        match pySplit (pyRstrip repoPart '/') "/" with
        | r₁ :: r₂ :: rs =>
          match pySplit rest "@" with
          | [filePath, ref] =>
              .ok (some ("remote::" ++ ((r₁ :: r₂ :: rs).getD (rs.length) "") ++
                "/" ++ ((r₁ :: r₂ :: rs).getD (rs.length + 1) "") ++
                "::.github/workflows/" ++ filePath ++ "@" ++ ref))
          | _ => .ok none
        | _ => .ok none
    else if pyStartsWith uses ".github/workflows/" ||
        pyStartsWith uses "./.github/workflows/" then
      .ok (some (resolveWorkdir
        (if pyStartsWith uses "./" then ⟨uses.data.drop 2⟩ else uses)))
    else if pyStartsWith uses "./" then .ok (some (resolveCurdir uses))
    else .ok (some (resolveWorkdir uses))
  else .ok none

/-- Embedding of the loop of `extract_called_workflows`
(main.py lines 225-253) over the jobs' `uses` values (absent or falsy
`uses` values are skipped), accumulating the `called` set. -/
def extractGo (resolveWorkdir resolveCurdir : String → String) :
    List (Option String) → List String → Except Unit (List String)
  | [], acc => .ok acc
  | none :: rest, acc => extractGo resolveWorkdir resolveCurdir rest acc
  | some u :: rest, acc =>
    match classifyUses resolveWorkdir resolveCurdir u with
    | .error e => .error e
    | .ok none => extractGo resolveWorkdir resolveCurdir rest acc
    | .ok (some c) => extractGo resolveWorkdir resolveCurdir rest (setAdd acc [c])

/-- Embedding of `extract_called_workflows` (main.py lines 225-253). -/
def extract_called_workflows (resolveWorkdir resolveCurdir : String → String)
    (jobs : List (Option String)) : Except Unit (List String) :=
  extractGo resolveWorkdir resolveCurdir jobs []

/-- Scenario E's remote `uses` string. -/
def usesRemote : String := "org/repo/.github/workflows/build.yml@v2"

/-- Scenario E's built-in action `uses` string. -/
def usesAction : String := "actions/checkout@v3"

/-- Parse oracle for the propagation counterexample: the discovered file
`w` parses and calls `x`; parsing `x` raises. -/
def parseRaise : String → ParseOutcome :=
  fun r => if r = "w" then .ok ["x"] else .raised

/-- Parse oracle for the repeated-attempt counterexample: two discovered
files both call `x`, whose remote fetch fails (returns `None`). -/
def parseTwice : String → ParseOutcome :=
  fun r => if r = "w1" then .ok ["x"] else if r = "w2" then .ok ["x"]
    else .fetchFail

/-- Parse oracle for the root/orphan witness: `root` calls `mid`, `mid`
calls `leaf`, `leaf` calls nothing (the layout of Scenario D). -/
def parseChain : String → ParseOutcome :=
  fun r => if r = "root" then .ok ["mid"] else if r = "mid" then .ok ["leaf"]
    else if r = "leaf" then .ok [] else .fetchFail

/-- Parse oracle with a fetch failure on the called-only reference `x`
and no raised errors anywhere. -/
def parseFetch : String → ParseOutcome :=
  fun r => if r = "w" then .ok ["x"] else .fetchFail

/-- The state `build_workflow_call_graph parseChain` ends in. -/
def stChain : CGState :=
  ⟨[("root", ["mid"]), ("mid", ["leaf"]), ("leaf", [])],
   [("root", ["mid"]), ("mid", ["leaf"]), ("leaf", [])],
   ["root", "mid", "leaf"], 1⟩

/-- The call graph of Scenario D. -/
def cgChain : List (String × List String) :=
  [("root", ["mid"]), ("mid", ["leaf"]), ("leaf", [])]

/-- Invariant: every key of the parsed registry was parsed successfully. -/
def ParsedSucceeded (parse : String → ParseOutcome) (st : CGState) : Prop :=
  ∀ k, hasKey st.parsed k = true → ∃ calls, parse k = .ok calls

/-- Invariant: every successfully-parsing reference was handed to the
parser at most once, and once attempted it is in the registry. -/
def AttemptBound (parse : String → ParseOutcome) (st : CGState) : Prop :=
  ∀ r calls, parse r = .ok calls →
    st.attempts.count r ≤ 1 ∧ (r ∈ st.attempts → hasKey st.parsed r = true)

/-- Invariant: every key of the call graph is a discovered file or occurs
in some key's call set. -/
def GraphClosed (files : List String) (st : CGState) : Prop :=
  ∀ k, hasKey st.graph k = true → k ∈ files ∨ ∃ p ∈ st.graph, k ∈ p.2

/-! General helper lemmas. -/

theorem contains_iff_mem {l : List String} {a : String} :
    l.contains a = true ↔ a ∈ l := by
  simp [List.contains_iff_exists_mem_beq]

theorem mem_readyOf {g : List (String × List String)} {rem : List String}
    {x : String} :
    x ∈ readyOf g rem ↔ x ∈ rem ∧ ∀ d ∈ getDeps g x, d ∉ rem := by
  simp [readyOf, List.mem_filter, List.any_eq_false, contains_iff_mem]

theorem mem_of_mem_levelOf {g : List (String × List String)}
    {rem : List String} {x : String} (hx : x ∈ levelOf g rem) : x ∈ rem := by
  unfold levelOf at hx
  split at hx
  · exact List.mem_of_mem_take hx
  · exact (mem_readyOf.mp hx).1

theorem levelOf_ne_nil {g : List (String × List String)} {rem : List String}
    (h : rem ≠ []) : levelOf g rem ≠ [] := by
  unfold levelOf
  split
  · cases rem with
    | nil => exact absurd rfl h
    | cons a t => simp
  · rename_i hns
    simpa [List.isEmpty_iff] using hns

theorem nodup_levelOf {g : List (String × List String)} {rem : List String}
    (h : rem.Nodup) : (levelOf g rem).Nodup := by
  unfold levelOf
  split
  · exact List.Nodup.sublist (List.take_sublist _ _) h
  · exact h.filter _

theorem mem_pySorted {l : List String} {x : String} :
    x ∈ pySorted l ↔ x ∈ l :=
  (List.perm_insertionSort _ l).mem_iff

theorem nodup_pySorted {l : List String} (h : l.Nodup) : (pySorted l).Nodup :=
  (List.perm_insertionSort _ l).nodup_iff.mpr h

theorem length_next_lt (g : List (String × List String)) (h : String)
    (t : List String) :
    ((h :: t).filter (fun j => ! (levelOf g (h :: t)).contains j)).length <
      (h :: t).length := by
  rw [List.length_filter_lt_length_iff_exists]
  obtain ⟨x, hx⟩ :=
    List.exists_mem_of_ne_nil _ (@levelOf_ne_nil g (h :: t) (by simp))
  exact ⟨x, mem_of_mem_levelOf hx, by simp [contains_iff_mem, hx]⟩

theorem mem_flatten_levelsGo {g : List (String × List String)} :
    ∀ (fuel : Nat) (rem : List String), rem.length ≤ fuel →
      ∀ x : String, (x ∈ (levelsGo g fuel rem).flatten ↔ x ∈ rem) := by
  intro fuel
  induction fuel with
  | zero =>
    intro rem hlen x
    have hnil : rem = [] := List.length_eq_zero.mp (Nat.le_zero.mp hlen)
    subst hnil
    simp [levelsGo]
  | succ n ih =>
    intro rem hlen x
    match rem with
    | [] => simp [levelsGo]
    | h :: t =>
      have hlt := length_next_lt g h t
      have hle : ((h :: t).filter
          (fun j => ! (levelOf g (h :: t)).contains j)).length ≤ n := by
        simp only [List.length_cons] at hlt hlen
        omega
      simp only [levelsGo, List.flatten_cons, List.mem_append, mem_pySorted]
      constructor
      · rintro (hx | hx)
        · exact mem_of_mem_levelOf hx
        · exact List.mem_of_mem_filter ((ih _ hle x).mp hx)
      · intro hx
        by_cases hlv : x ∈ levelOf g (h :: t)
        · exact Or.inl hlv
        · refine Or.inr ((ih _ hle x).mpr ?_)
          simp [List.mem_filter, hx, contains_iff_mem, hlv]

theorem nodup_flatten_levelsGo {g : List (String × List String)} :
    ∀ (fuel : Nat) (rem : List String), rem.length ≤ fuel → rem.Nodup →
      (levelsGo g fuel rem).flatten.Nodup := by
  intro fuel
  induction fuel with
  | zero =>
    intro rem hlen _
    have hnil : rem = [] := List.length_eq_zero.mp (Nat.le_zero.mp hlen)
    subst hnil
    simp [levelsGo]
  | succ n ih =>
    intro rem hlen hnd
    match rem with
    | [] => simp [levelsGo]
    | h :: t =>
      have hlt := length_next_lt g h t
      have hle : ((h :: t).filter
          (fun j => ! (levelOf g (h :: t)).contains j)).length ≤ n := by
        simp only [List.length_cons] at hlt hlen
        omega
      simp only [levelsGo, List.flatten_cons]
      rw [List.nodup_append]
      refine ⟨nodup_pySorted (nodup_levelOf hnd), ih _ hle (hnd.filter _), ?_⟩
      intro a ha hb
      have ha' : a ∈ levelOf g (h :: t) := mem_pySorted.mp ha
      have hb' : a ∈ (h :: t).filter
          (fun j => ! (levelOf g (h :: t)).contains j) :=
        (mem_flatten_levelsGo n _ hle a).mp hb
      have := (List.mem_filter.mp hb').2
      simp [contains_iff_mem, ha'] at this

theorem length_levelsGo_le {g : List (String × List String)} :
    ∀ (fuel : Nat) (rem : List String), rem.length ≤ fuel →
      (levelsGo g fuel rem).length ≤ rem.length := by
  intro fuel
  induction fuel with
  | zero =>
    intro rem hlen
    have hnil : rem = [] := List.length_eq_zero.mp (Nat.le_zero.mp hlen)
    subst hnil
    simp [levelsGo]
  | succ n ih =>
    intro rem hlen
    match rem with
    | [] => simp [levelsGo]
    | h :: t =>
      have hlt := length_next_lt g h t
      have hle : ((h :: t).filter
          (fun j => ! (levelOf g (h :: t)).contains j)).length ≤ n := by
        simp only [List.length_cons] at hlt hlen
        omega
      have := ih _ hle
      simp only [levelsGo, List.length_cons] at hlt ⊢
      omega

theorem keys_graphBase (ds : List (String × List String)) :
    (graphBase ds).map Prod.fst = ds.map Prod.fst := by
  induction ds with
  | nil => rfl
  | cons p ps ih =>
    simp only [graphBase, List.map_cons] at ih ⊢
    rw [ih]

theorem keys_analyze (jobs : List (String × Needs)) :
    (analyze_job_dependencies jobs).map Prod.fst = jobs.map Prod.fst := by
  induction jobs with
  | nil => rfl
  | cons p ps ih =>
    simp only [analyze_job_dependencies, List.map_cons] at ih ⊢
    rw [ih]

theorem contains_eq_false {l : List String} {a : String} :
    l.contains a = false ↔ a ∉ l := by
  constructor
  · intro h hm
    rw [contains_iff_mem.mpr hm] at h
    simp at h
  · intro hm
    cases hc : l.contains a
    · rfl
    · exact absurd (contains_iff_mem.mp hc) hm

theorem mem_flatten_graphBase {ds : List (String × List String)}
    {x : String} :
    x ∈ ((graphBase ds).map Prod.snd).flatten ↔ ∃ p ∈ ds, x ∈ p.2 := by
  simp only [graphBase, List.map_map, List.mem_flatten]
  constructor
  · rintro ⟨l, hl, hx⟩
    obtain ⟨p, hp, rfl⟩ := List.mem_map.mp hl
    exact ⟨p, hp, List.mem_dedup.mp hx⟩
  · rintro ⟨p, hp, hx⟩
    exact ⟨p.2.dedup, List.mem_map_of_mem _ hp, List.mem_dedup.mpr hx⟩

theorem mem_graphExtra {ds : List (String × List String)} {x : String} :
    x ∈ graphExtra ds ↔ (∃ p ∈ ds, x ∈ p.2) ∧ x ∉ ds.map Prod.fst := by
  rw [graphExtra, List.mem_filter, List.mem_dedup, mem_flatten_graphBase]
  constructor
  · rintro ⟨h1, h2⟩
    rw [Bool.not_eq_true', contains_eq_false, keys_graphBase] at h2
    exact ⟨h1, h2⟩
  · rintro ⟨h1, h2⟩
    rw [Bool.not_eq_true', contains_eq_false, keys_graphBase]
    exact ⟨h1, h2⟩

theorem mem_keys_buildGraph {ds : List (String × List String)} {x : String} :
    x ∈ (buildGraph ds).map Prod.fst ↔
      x ∈ ds.map Prod.fst ∨ ∃ p ∈ ds, x ∈ p.2 := by
  have hx : ((graphExtra ds).map (fun d => (d, ([] : List String)))).map
      Prod.fst = graphExtra ds := by
    simp [List.map_map, Function.comp_def]
  rw [buildGraph, List.map_append, hx, List.mem_append, keys_graphBase]
  constructor
  · rintro (h | h)
    · exact Or.inl h
    · exact Or.inr (mem_graphExtra.mp h).1
  · rintro (h | h)
    · exact Or.inl h
    · by_cases hk : x ∈ ds.map Prod.fst
      · exact Or.inl hk
      · exact Or.inr (mem_graphExtra.mpr ⟨h, hk⟩)

theorem nodup_keys_buildGraph {ds : List (String × List String)}
    (h : (ds.map Prod.fst).Nodup) : ((buildGraph ds).map Prod.fst).Nodup := by
  have hx : ((graphExtra ds).map (fun d => (d, ([] : List String)))).map
      Prod.fst = graphExtra ds := by
    simp [List.map_map, Function.comp_def]
  rw [buildGraph, List.map_append, hx, List.nodup_append, keys_graphBase]
  refine ⟨h, (List.nodup_dedup _).filter _, ?_⟩
  intro a ha hb
  exact absurd ha (mem_graphExtra.mp hb).2

theorem exists_dep_analyze {jobs : List (String × Needs)} {x : String} :
    (∃ p ∈ analyze_job_dependencies jobs, x ∈ p.2) ↔
      ∃ q ∈ jobs, x ∈ normalizeNeeds q.2 := by
  constructor
  · rintro ⟨p, hp, hx⟩
    rw [analyze_job_dependencies] at hp
    obtain ⟨q, hq, rfl⟩ := List.mem_map.mp hp
    exact ⟨q, hq, hx⟩
  · rintro ⟨q, hq, hx⟩
    exact ⟨_, List.mem_map_of_mem _ hq, hx⟩

theorem mem_graphNodes {jobs : List (String × Needs)} {x : String} :
    x ∈ graphNodes jobs ↔
      x ∈ jobs.map Prod.fst ∨ ∃ q ∈ jobs, x ∈ normalizeNeeds q.2 := by
  rw [graphNodes, graphOf, mem_keys_buildGraph, keys_analyze,
    exists_dep_analyze]

theorem nodup_graphNodes {jobs : List (String × Needs)}
    (h : (jobs.map Prod.fst).Nodup) : (graphNodes jobs).Nodup := by
  rw [graphNodes, graphOf]
  exact nodup_keys_buildGraph (by rw [keys_analyze]; exact h)

/-- C1: for every job table (with the distinct keys of a Python dict),
composing `_analyze_job_dependencies` with `_generate_execution_flow`
yields levels that together contain every identifier of the node-closure
of the table (job keys united with every identifier appearing in any
needs set) exactly once — no duplicates, no omissions — and the list has
at most as many levels as the graph has nodes, with no acyclicity
hypothesis, so also for dependency graphs containing cycles of any
length. -/
theorem execution_flow_complete (jobs : List (String × Needs))
    (hnd : (jobs.map Prod.fst).Nodup) :
    (generate_execution_flow jobs).flatten.Nodup ∧
    (∀ x : String, x ∈ (generate_execution_flow jobs).flatten ↔
      x ∈ jobs.map Prod.fst ∨ ∃ q ∈ jobs, x ∈ normalizeNeeds q.2) ∧
    (generate_execution_flow jobs).length ≤ (graphNodes jobs).length := by
  refine ⟨?_, ?_, ?_⟩
  · exact nodup_flatten_levelsGo _ _ le_rfl (nodup_graphNodes hnd)
  · intro x
    rw [generate_execution_flow, levelsAux, mem_flatten_levelsGo _ _ le_rfl x,
      mem_graphNodes]
  · exact length_levelsGo_le _ _ le_rfl

/-- Witness for C1 at Scenario C (an undeclared dependency target). -/
theorem execution_flow_complete_witness :
    (generate_execution_flow jobsC).flatten.Nodup ∧
    ("Z" ∈ (generate_execution_flow jobsC).flatten ↔
      "Z" ∈ jobsC.map Prod.fst ∨ ∃ q ∈ jobsC, "Z" ∈ normalizeNeeds q.2) ∧
    (generate_execution_flow jobsC).length ≤ (graphNodes jobsC).length :=
  ⟨(execution_flow_complete jobsC (by decide)).1,
   (execution_flow_complete jobsC (by decide)).2.1 "Z",
   (execution_flow_complete jobsC (by decide)).2.2⟩

/-- C2: for every job table, a job `j` sitting in level `k` that was not
forcibly placed (encoded: no dependency of `j` is still among the members
of levels `k` and later — precisely the ready condition of the iteration
that emitted level `k`) has every dependency that is a node of the graph
in some strictly earlier level; and when the first iteration's ready set
is nonempty (level 0 not forced, encoded by the existence of a node
without in-graph dependencies), level 0 contains exactly the nodes whose
dependency sets contain no node of the graph. -/
theorem execution_flow_level_validity (jobs : List (String × Needs)) :
    (∀ k : Nat, ∀ j ∈ (generate_execution_flow jobs).getD k [],
      (∀ d ∈ getDeps (graphOf jobs) j,
          d ∉ ((generate_execution_flow jobs).drop k).flatten) →
      ∀ d ∈ getDeps (graphOf jobs) j, d ∈ graphNodes jobs →
        ∃ m, m < k ∧ d ∈ (generate_execution_flow jobs).getD m []) ∧
    ((∃ x ∈ graphNodes jobs,
        ∀ d ∈ getDeps (graphOf jobs) x, d ∉ graphNodes jobs) →
      ∀ x : String, x ∈ (generate_execution_flow jobs).getD 0 [] ↔
        x ∈ graphNodes jobs ∧
          ∀ d ∈ getDeps (graphOf jobs) x, d ∉ graphNodes jobs) := by
  constructor
  · intro k j _ hready d hd hdn
    have hmemflat : d ∈ (generate_execution_flow jobs).flatten := by
      rw [generate_execution_flow, levelsAux, mem_flatten_levelsGo _ _ le_rfl d]
      exact hdn
    rw [← List.take_append_drop k (generate_execution_flow jobs),
      List.flatten_append, List.mem_append] at hmemflat
    rcases hmemflat with htake | hdrop
    · obtain ⟨lvl, hlvl, hdl⟩ := List.mem_flatten.mp htake
      obtain ⟨i, hi, hieq⟩ := List.mem_iff_getElem.mp hlvl
      have hik : i < k := lt_of_lt_of_le hi
        (by rw [List.length_take]; exact min_le_left _ _)
      have hil : i < (generate_execution_flow jobs).length := lt_of_lt_of_le hi
        (by rw [List.length_take]; exact min_le_right _ _)
      refine ⟨i, hik, ?_⟩
      rw [List.getD_eq_getElem _ _ hil]
      rw [List.getElem_take] at hieq
      rw [hieq]
      exact hdl
    · exact absurd hdrop (hready d hd)
  · intro hex x
    obtain ⟨x₀, hx₀mem, hx₀dep⟩ := hex
    have hne : graphNodes jobs ≠ [] := List.ne_nil_of_mem hx₀mem
    cases henum : graphNodes jobs with
    | nil => exact absurd henum hne
    | cons h t =>
      have hflow : (generate_execution_flow jobs).getD 0 [] =
          pySorted (levelOf (graphOf jobs) (h :: t)) := by
        rw [generate_execution_flow, levelsAux, henum]
        simp [levelsGo]
      have hready_ne : readyOf (graphOf jobs) (h :: t) ≠ [] := by
        refine List.ne_nil_of_mem (mem_readyOf.mpr ⟨henum ▸ hx₀mem, ?_⟩)
        intro d hd
        have := hx₀dep d hd
        rw [henum] at this
        exact this
      have hlev : levelOf (graphOf jobs) (h :: t) =
          readyOf (graphOf jobs) (h :: t) := by
        rw [levelOf, if_neg]
        simpa [List.isEmpty_iff] using hready_ne
      rw [hflow, mem_pySorted, hlev, mem_readyOf, ← henum]

/-- Witness for C2 at Scenario A (a linear chain): job `C` of level 2 has
dependency `A` in a strictly earlier level, and level 0 is exactly the set
of jobs with no in-graph dependencies, instantiated at `A`. -/
theorem execution_flow_level_validity_witness :
    (∃ m, m < 2 ∧ "A" ∈ (generate_execution_flow jobsA).getD m []) ∧
    ("A" ∈ (generate_execution_flow jobsA).getD 0 [] ↔
      "A" ∈ graphNodes jobsA ∧
        ∀ d ∈ getDeps (graphOf jobsA) "A", d ∉ graphNodes jobsA) :=
  ⟨(execution_flow_level_validity jobsA).1 2 "C" (by decide)
      (by decide) "A" (by decide) (by decide),
   (execution_flow_level_validity jobsA).2
      ⟨"A", by decide, by decide⟩ "A"⟩

/-- Counterexample to C3: on the two-cycle `A ↔ B`, with the remaining
set enumerated in the admissible iteration order `["B", "A"]`, the ready
set is empty (a cycle) and the forcibly emitted singleton level is `B`,
not the lowest remaining identifier `A`; enumerating the same set as
`["A", "B"]` emits `A` instead, so the forced pick is not determined by
sort order but by the implementation-defined set iteration order. -/
theorem cycle_break_not_lowest :
    readyOf cycleGraph ["B", "A"] = [] ∧
    levelsAux cycleGraph ["B", "A"] = [["B"], ["A"]] ∧
    levelsAux cycleGraph ["A", "B"] = [["A"], ["B"]] ∧
    strLe "A" "B" = true ∧ "A" ≠ "B" := by decide

/-- C3 amended: when an iteration finds an empty ready set while nodes
remain, the node forcibly emitted as its own singleton level is the first
element of the remaining set's iteration order — an arbitrary remaining
node, implementation-defined, not necessarily the lowest by sort order. -/
theorem cycle_break_first_of_iteration_order
    (g : List (String × List String)) (h : String) (t : List String)
    (hcyc : readyOf g (h :: t) = []) :
    levelOf g (h :: t) = [h] ∧ h ∈ h :: t ∧
    (levelsAux g (h :: t)).getD 0 [] = pySorted [h] := by
  have hl : levelOf g (h :: t) = [h] := by
    rw [levelOf, if_pos]
    · rfl
    · rw [hcyc]
      rfl
  refine ⟨hl, List.mem_cons_self _ _, ?_⟩
  rw [levelsAux]
  simp [levelsGo, hl]

/-- Witness for the amended C3 on the two-cycle with iteration order
`["B", "A"]`. -/
theorem cycle_break_first_witness :
    levelOf cycleGraph ["B", "A"] = ["B"] ∧ "B" ∈ ["B", "A"] ∧
    (levelsAux cycleGraph ["B", "A"]).getD 0 [] = pySorted ["B"] :=
  cycle_break_first_of_iteration_order cycleGraph "B" ["A"] (by decide)

/-- Counterexample to C4: for the job table `{a: needs "b"}`, the map
returned by `_analyze_job_dependencies` references `b` but has no key
`b` — the returned dependency map is not closed over referenced
identifiers. -/
theorem dependency_map_not_closed :
    (∃ p ∈ analyze_job_dependencies jobsRef, "b" ∈ p.2) ∧
    "b" ∉ (analyze_job_dependencies jobsRef).map Prod.fst := by
  exact ⟨⟨("a", ["b"]), by decide, by decide⟩, by decide⟩

/-- C4 amended: the closure invariant holds of the dependency graph built
inside `_generate_execution_flow`, not of the map returned by
`_analyze_job_dependencies`: every identifier referenced in some
dependency set of the returned map that is not a job-table key appears as
a key of that graph, bound to an empty dependency set. -/
theorem dependency_closure_in_graph (jobs : List (String × Needs))
    (d : String) (hd : ∃ p ∈ analyze_job_dependencies jobs, d ∈ p.2)
    (hnk : d ∉ jobs.map Prod.fst) :
    d ∈ graphNodes jobs ∧ (d, ([] : List String)) ∈ graphOf jobs := by
  have hm : d ∈ graphExtra (analyze_job_dependencies jobs) :=
    mem_graphExtra.mpr ⟨hd, by rw [keys_analyze]; exact hnk⟩
  constructor
  · exact mem_graphNodes.mpr (Or.inr (exists_dep_analyze.mp hd))
  · rw [graphOf, buildGraph]
    exact List.mem_append_right _ (List.mem_map_of_mem _ hm)

/-- Witness for the amended C4: `b` is a key of the graph with an empty
dependency set. -/
theorem dependency_closure_in_graph_witness :
    "b" ∈ graphNodes jobsRef ∧ ("b", ([] : List String)) ∈ graphOf jobsRef :=
  dependency_closure_in_graph jobsRef "b" ⟨("a", ["b"]), by decide, by decide⟩
    (by decide)

/-- C5: `_analyze_job_dependencies` returns exactly one entry per job of
the table, in order; each job's value, read as a set, is the spec's
normalization of its `needs` (absent → empty set, single string →
one-element set, list → its elements with duplicates collapsed, any other
shape → empty set). The embedding is a total function — every `Needs`
shape produces an entry, mirroring that the source never raises. -/
theorem analyze_dependencies_normalized (jobs : List (String × Needs)) :
    (analyze_job_dependencies jobs).map Prod.fst = jobs.map Prod.fst ∧
    ∀ j n, (j, n) ∈ jobs →
      ∃ v, (j, v) ∈ analyze_job_dependencies jobs ∧
        v.toFinset = needsSetSpec n := by
  refine ⟨keys_analyze jobs, ?_⟩
  intro j n hmem
  refine ⟨normalizeNeeds n, List.mem_map_of_mem _ hmem, ?_⟩
  cases n <;> simp [normalizeNeeds, needsSetSpec]

/-- Witness for C5 at a table exercising all four `needs` shapes,
instantiated at the list-shaped job `c`. -/
theorem analyze_dependencies_normalized_witness :
    (analyze_job_dependencies jobsShapes).map Prod.fst =
      jobsShapes.map Prod.fst ∧
    ∃ v, ("c", v) ∈ analyze_job_dependencies jobsShapes ∧
      v.toFinset = needsSetSpec (.list ["a", "a", "b"]) :=
  ⟨(analyze_dependencies_normalized jobsShapes).1,
   (analyze_dependencies_normalized jobsShapes).2 "c" (.list ["a", "a", "b"])
     (by decide)⟩

/-! Helper lemmas about the call-graph state operations. -/

theorem hasKey_iff {m : List (String × List String)} {k : String} :
    hasKey m k = true ↔ k ∈ m.map Prod.fst := by
  simp [hasKey, List.any_eq_true, List.mem_map, beq_iff_eq]

theorem hasKey_append_singleton {m : List (String × List String)}
    {k x : String} {v : List String} :
    hasKey (m ++ [(k, v)]) x = (hasKey m x || x == k) := by
  simp only [hasKey, List.any_append, List.any_cons, List.any_nil,
    Bool.or_false]
  rw [BEq.comm]

theorem hasKey_map_update {g : List (String × List String)}
    {k x : String} {v : List String} :
    hasKey (g.map (fun p => if p.1 == k then (p.1, setAdd p.2 v) else p)) x =
      hasKey g x := by
  have hfst : (g.map (fun p => if p.1 == k then (p.1, setAdd p.2 v) else p)).map
      Prod.fst = g.map Prod.fst := by
    induction g with
    | nil => rfl
    | cons p ps ih =>
      simp only [List.map_cons] at ih ⊢
      rw [ih]
      congr 1
      split <;> rfl
  rw [Bool.eq_iff_iff, hasKey_iff, hasKey_iff, hfst]

theorem mem_setAdd_left {old new : List String} {x : String}
    (h : x ∈ old) : x ∈ setAdd old new :=
  List.mem_append_left _ h

theorem mem_of_mem_setAdd {old new : List String} {x : String}
    (h : x ∈ setAdd old new) : x ∈ old ∨ x ∈ new := by
  rcases List.mem_append.mp h with h | h
  · exact Or.inl h
  · exact Or.inr (List.mem_of_mem_filter (List.mem_dedup.mp h))

theorem hasKey_graphAdd {g : List (String × List String)} {k x : String}
    {v : List String} :
    hasKey (graphAdd g k v) x = true ↔ hasKey g x = true ∨ x = k := by
  rw [graphAdd]
  split
  · rename_i hk
    rw [hasKey_map_update]
    constructor
    · exact Or.inl
    · rintro (h | rfl)
      · exact h
      · exact hk
  · rw [hasKey_append_singleton, Bool.or_eq_true, beq_iff_eq]

theorem called_mono_graphAdd {g : List (String × List String)}
    {k c : String} {v : List String}
    (h : ∃ p ∈ g, c ∈ p.2) : ∃ p ∈ graphAdd g k v, c ∈ p.2 := by
  obtain ⟨p, hp, hc⟩ := h
  rw [graphAdd]
  split
  · by_cases hpk : p.1 == k
    · exact ⟨(p.1, setAdd p.2 v),
        List.mem_map.mpr ⟨p, hp, by rw [if_pos hpk]⟩, mem_setAdd_left hc⟩
    · exact ⟨p, List.mem_map.mpr ⟨p, hp, by rw [if_neg hpk]⟩, hc⟩
  · exact ⟨p, List.mem_append_left _ hp, hc⟩

theorem mem_lookupGraph {g : List (String × List String)} {k c : String}
    (h : c ∈ lookupGraph g k) : ∃ p ∈ g, c ∈ p.2 := by
  rw [lookupGraph] at h
  split at h
  · rename_i p hp
    exact ⟨p, List.mem_of_find?_eq_some hp, h⟩
  · cases h

/-! Totality of the builder when no parse raises, with all registry keys
successfully parsed (the C6 chain). -/

theorem initLoop_total (parse : String → ParseOutcome)
    (hnr : ∀ r, parse r ≠ .raised) :
    ∀ (files : List String) (st : CGState), ParsedSucceeded parse st →
      ∃ st', initLoop parse files st = .ok st' ∧ ParsedSucceeded parse st' := by
  intro files
  induction files with
  | nil => exact fun st h => ⟨st, rfl, h⟩
  | cons wf rest ih =>
    intro st h
    cases hp : parse wf with
    | raised => exact absurd hp (hnr wf)
    | fetchFail =>
      obtain ⟨st', hst', hinv⟩ := ih { st with attempts := st.attempts ++ [wf] } h
      exact ⟨st', by simp only [initLoop, hp]; exact hst', hinv⟩
    | ok calls =>
      have h' : ParsedSucceeded parse
          { st with
            parsed := st.parsed ++ [(wf, calls)]
            graph := graphAdd st.graph wf calls
            attempts := st.attempts ++ [wf] } := by
        intro k hk
        rw [hasKey_append_singleton, Bool.or_eq_true, beq_iff_eq] at hk
        rcases hk with hk | rfl
        · exact h k hk
        · exact ⟨calls, hp⟩
      obtain ⟨st', hst', hinv⟩ := ih _ h'
      exact ⟨st', by simp only [initLoop, hp]; exact hst', hinv⟩

theorem procCalls_total (parse : String → ParseOutcome)
    (hnr : ∀ r, parse r ≠ .raised) :
    ∀ (cs : List String) (st : CGState) (news : List String),
      ParsedSucceeded parse st →
      ∃ out, procCalls parse cs st news = .ok out ∧
        ParsedSucceeded parse out.1 := by
  intro cs
  induction cs with
  | nil => exact fun st news h => ⟨(st, news), rfl, h⟩
  | cons c rest ih =>
    intro st news h
    by_cases hk : hasKey st.parsed c = true
    · obtain ⟨out, ho, hi⟩ := ih st news h
      exact ⟨out, by simp only [procCalls, if_pos hk]; exact ho, hi⟩
    · cases hp : parse c with
      | raised => exact absurd hp (hnr c)
      | fetchFail =>
        obtain ⟨out, ho, hi⟩ := ih { st with attempts := st.attempts ++ [c] } news h
        exact ⟨out, by simp only [procCalls, if_neg hk, hp]; exact ho, hi⟩
      | ok calls =>
        have h' : ParsedSucceeded parse
            { st with
              parsed := st.parsed ++ [(c, calls)]
              graph := graphAdd st.graph c calls
              attempts := st.attempts ++ [c] } := by
          intro k hkk
          rw [hasKey_append_singleton, Bool.or_eq_true, beq_iff_eq] at hkk
          rcases hkk with hkk | rfl
          · exact h k hkk
          · exact ⟨calls, hp⟩
        obtain ⟨out, ho, hi⟩ := ih _ (setAdd news calls) h'
        exact ⟨out, by simp only [procCalls, if_neg hk, hp]; exact ho, hi⟩

theorem procKeys_total (parse : String → ParseOutcome)
    (hnr : ∀ r, parse r ≠ .raised) :
    ∀ (keys : List String) (st : CGState) (news : List String),
      ParsedSucceeded parse st →
      ∃ out, procKeys parse keys st news = .ok out ∧
        ParsedSucceeded parse out.1 := by
  intro keys
  induction keys with
  | nil => exact fun st news h => ⟨(st, news), rfl, h⟩
  | cons wf rest ih =>
    intro st news h
    obtain ⟨out1, ho1, hi1⟩ :=
      procCalls_total parse hnr (lookupGraph st.graph wf) st news h
    obtain ⟨out2, ho2, hi2⟩ := ih out1.1 out1.2 hi1
    refine ⟨out2, ?_, hi2⟩
    rw [procKeys, ho1]
    exact ho2

theorem roundsGo_total (parse : String → ParseOutcome)
    (hnr : ∀ r, parse r ≠ .raised) :
    ∀ (n : Nat) (st : CGState), ParsedSucceeded parse st →
      ∃ st', roundsGo parse n st = .ok st' ∧ ParsedSucceeded parse st' := by
  intro n
  induction n with
  | zero => exact fun st h => ⟨st, rfl, h⟩
  | succ m ih =>
    intro st h
    obtain ⟨out, ho, hi⟩ :=
      procKeys_total parse hnr (st.graph.map Prod.fst) st [] h
    by_cases hne : out.2.isEmpty = true
    · refine ⟨{ out.1 with rounds := out.1.rounds + 1 }, ?_, hi⟩
      rw [roundsGo, ho]
      show (if out.2.isEmpty = true
          then Except.ok { out.1 with rounds := out.1.rounds + 1 }
          else roundsGo parse m { out.1 with rounds := out.1.rounds + 1 }) =
        Except.ok { out.1 with rounds := out.1.rounds + 1 }
      rw [if_pos hne]
    · obtain ⟨st', h2, hi2⟩ := ih { out.1 with rounds := out.1.rounds + 1 } hi
      refine ⟨st', ?_, hi2⟩
      rw [roundsGo, ho]
      show (if out.2.isEmpty = true
          then Except.ok { out.1 with rounds := out.1.rounds + 1 }
          else roundsGo parse m { out.1 with rounds := out.1.rounds + 1 }) =
        Except.ok st'
      rw [if_neg hne]
      exact h2

/-- Counterexample to C6: with the oracle `parseRaise`, the discovered
file `w` parses and calls `x`; `x` appears only as a call target (it is
not among the discovered files `["w"]`), and parsing it raises — and the
raised error propagates out of `build_workflow_call_graph` instead of
merely terminating that branch. -/
theorem parse_error_propagates :
    parseRaise "w" = .ok ["x"] ∧ parseRaise "x" = .raised ∧
    ("x" ∈ (["w"] : List String) → False) ∧
    build_workflow_call_graph parseRaise ["w"] = .error () :=
  ⟨rfl, rfl, by decide, rfl⟩

/-- C6 amended: when every failure is a fetch failure (`parse_workflow_file`
returning `None`, i.e. a remote fetch with non-success status) rather than
a raised parse error, no exception propagates out of
`build_workflow_call_graph` — it returns a result — and every key of the
returned parsed registry was parsed successfully, so a failed reference
never appears as a key. A reference whose parse raises, by contrast,
propagates the exception (see the counterexample). -/
theorem build_call_graph_fetch_failures_nonfatal
    (parse : String → ParseOutcome) (files : List String)
    (hnr : ∀ r, parse r ≠ .raised) :
    ∃ st, build_workflow_call_graph parse files = .ok st ∧
      ∀ k, hasKey st.parsed k = true → ∃ calls, parse k = .ok calls := by
  have h0 : ParsedSucceeded parse ⟨[], [], [], 0⟩ := by
    intro k hk
    simp [hasKey] at hk
  obtain ⟨st1, h1, hi1⟩ := initLoop_total parse hnr files _ h0
  obtain ⟨st2, h2, hi2⟩ := roundsGo_total parse hnr 5 st1 hi1
  exact ⟨st2, by rw [build_workflow_call_graph, h1]; exact h2, hi2⟩

/-- Witness for the amended C6: the called-only reference `x` fetch-fails
under `parseFetch`; the build nevertheless returns a state whose registry
keys all parsed successfully. -/
theorem build_call_graph_fetch_failures_nonfatal_witness :
    ∃ st, build_workflow_call_graph parseFetch ["w"] = .ok st ∧
      ∀ k, hasKey st.parsed k = true → ∃ calls, parseFetch k = .ok calls :=
  build_call_graph_fetch_failures_nonfatal parseFetch ["w"]
    (by intro r; rw [parseFetch]; split <;> simp)

/-! Attempt counting (the C7 chain). -/

theorem count_singleton_same {a : String} : List.count a [a] = 1 := by
  simp

theorem count_singleton_ne {a b : String} (h : a ≠ b) :
    List.count a [b] = 0 := by
  simp [List.count_cons, h]

theorem initLoop_attempts (parse : String → ParseOutcome) :
    ∀ (files : List String) (st st' : CGState),
      initLoop parse files st = .ok st' → files.Nodup →
      (∀ f ∈ files, f ∉ st.attempts) → AttemptBound parse st →
      AttemptBound parse st' := by
  intro files
  induction files with
  | nil =>
    intro st st' h _ _ hA
    rw [initLoop, Except.ok.injEq] at h
    subst h
    exact hA
  | cons wf rest ih =>
    intro st st' h hnd hfresh hA
    cases hp : parse wf with
    | raised =>
      simp only [initLoop, hp] at h
      exact Except.noConfusion h
    | fetchFail =>
      simp only [initLoop, hp] at h
      refine ih _ st' h hnd.of_cons ?_ ?_
      · intro f hf hmem
        rcases List.mem_append.mp hmem with hm | hm
        · exact hfresh f (List.mem_cons_of_mem _ hf) hm
        · rw [List.mem_singleton] at hm
          subst hm
          exact (List.nodup_cons.mp hnd).1 hf
      · intro r calls hr
        obtain ⟨hc, hm⟩ := hA r calls hr
        have hrwf : r ≠ wf := by
          intro he
          subst he
          rw [hr] at hp
          cases hp
        constructor
        · rw [List.count_append, count_singleton_ne hrwf]
          simpa using hc
        · intro hmem
          rcases List.mem_append.mp hmem with hm2 | hm2
          · exact hm hm2
          · rw [List.mem_singleton] at hm2
            exact absurd hm2 hrwf
    | ok calls =>
      simp only [initLoop, hp] at h
      refine ih _ st' h hnd.of_cons ?_ ?_
      · intro f hf hmem
        rcases List.mem_append.mp hmem with hm | hm
        · exact hfresh f (List.mem_cons_of_mem _ hf) hm
        · rw [List.mem_singleton] at hm
          subst hm
          exact (List.nodup_cons.mp hnd).1 hf
      · intro r calls' hr
        by_cases hrwf : r = wf
        · subst hrwf
          have hnotmem : r ∉ st.attempts := hfresh r (List.mem_cons_self _ _)
          constructor
          · rw [List.count_append, List.count_eq_zero.mpr hnotmem,
              count_singleton_same]
          · intro _
            rw [hasKey_append_singleton, Bool.or_eq_true]
            right
            simp
        · obtain ⟨hc, hm⟩ := hA r calls' hr
          constructor
          · rw [List.count_append, count_singleton_ne hrwf]
            simpa using hc
          · intro hmem
            rw [hasKey_append_singleton, Bool.or_eq_true]
            rcases List.mem_append.mp hmem with hm2 | hm2
            · exact Or.inl (hm hm2)
            · rw [List.mem_singleton] at hm2
              exact absurd hm2 hrwf

theorem procCalls_attempts (parse : String → ParseOutcome) :
    ∀ (cs : List String) (st : CGState) (news : List String)
      (out : CGState × List String),
      procCalls parse cs st news = .ok out → AttemptBound parse st →
      AttemptBound parse out.1 := by
  intro cs
  induction cs with
  | nil =>
    intro st news out h hA
    rw [procCalls, Except.ok.injEq] at h
    subst h
    exact hA
  | cons c rest ih =>
    intro st news out h hA
    by_cases hk : hasKey st.parsed c = true
    · rw [procCalls, if_pos hk] at h
      exact ih _ _ _ h hA
    · cases hp : parse c with
      | raised =>
        simp only [procCalls, if_neg hk, hp] at h
        exact Except.noConfusion h
      | fetchFail =>
        simp only [procCalls, if_neg hk, hp] at h
        refine ih _ _ _ h ?_
        intro r calls hr
        obtain ⟨hc, hm⟩ := hA r calls hr
        have hrc : r ≠ c := by
          intro he
          subst he
          rw [hr] at hp
          cases hp
        constructor
        · rw [List.count_append, count_singleton_ne hrc]
          simpa using hc
        · intro hmem
          rcases List.mem_append.mp hmem with hm2 | hm2
          · exact hm hm2
          · rw [List.mem_singleton] at hm2
            exact absurd hm2 hrc
      | ok calls =>
        simp only [procCalls, if_neg hk, hp] at h
        refine ih _ _ _ h ?_
        intro r calls' hr
        by_cases hrc : r = c
        · subst hrc
          have hnotmem : r ∉ st.attempts := by
            intro hmem
            exact hk ((hA r calls' hr).2 hmem)
          constructor
          · rw [List.count_append, List.count_eq_zero.mpr hnotmem,
              count_singleton_same]
          · intro _
            rw [hasKey_append_singleton, Bool.or_eq_true]
            right
            simp
        · obtain ⟨hc, hm⟩ := hA r calls' hr
          constructor
          · rw [List.count_append, count_singleton_ne hrc]
            simpa using hc
          · intro hmem
            rw [hasKey_append_singleton, Bool.or_eq_true]
            rcases List.mem_append.mp hmem with hm2 | hm2
            · exact Or.inl (hm hm2)
            · rw [List.mem_singleton] at hm2
              exact absurd hm2 hrc

theorem procKeys_attempts (parse : String → ParseOutcome) :
    ∀ (keys : List String) (st : CGState) (news : List String)
      (out : CGState × List String),
      procKeys parse keys st news = .ok out → AttemptBound parse st →
      AttemptBound parse out.1 := by
  intro keys
  induction keys with
  | nil =>
    intro st news out h hA
    rw [procKeys, Except.ok.injEq] at h
    subst h
    exact hA
  | cons wf rest ih =>
    intro st news out h hA
    cases hpc : procCalls parse (lookupGraph st.graph wf) st news with
    | error e => rw [procKeys, hpc] at h; cases h
    | ok r =>
      rw [procKeys, hpc] at h
      exact ih r.1 r.2 out h (procCalls_attempts parse _ _ _ _ hpc hA)

theorem roundsGo_attempts (parse : String → ParseOutcome) :
    ∀ (n : Nat) (st st' : CGState), roundsGo parse n st = .ok st' →
      AttemptBound parse st → AttemptBound parse st' := by
  intro n
  induction n with
  | zero =>
    intro st st' h hA
    rw [roundsGo, Except.ok.injEq] at h
    subst h
    exact hA
  | succ m ih =>
    intro st st' h hA
    cases hpk : procKeys parse (st.graph.map Prod.fst) st [] with
    | error e => rw [roundsGo, hpk] at h; cases h
    | ok r =>
      rw [roundsGo, hpk] at h
      have hA1 : AttemptBound parse r.1 :=
        procKeys_attempts parse _ _ _ _ hpk hA
      have h' : (if r.2.isEmpty = true
          then Except.ok { r.1 with rounds := r.1.rounds + 1 }
          else roundsGo parse m { r.1 with rounds := r.1.rounds + 1 }) =
          .ok st' := h
      by_cases hne : r.2.isEmpty = true
      · rw [if_pos hne, Except.ok.injEq] at h'
        subst h'
        exact hA1
      · rw [if_neg hne] at h'
        exact ih _ _ h' hA1

theorem procCalls_rounds (parse : String → ParseOutcome) :
    ∀ (cs : List String) (st : CGState) (news : List String)
      (out : CGState × List String),
      procCalls parse cs st news = .ok out → out.1.rounds = st.rounds := by
  intro cs
  induction cs with
  | nil =>
    intro st news out h
    rw [procCalls, Except.ok.injEq] at h
    subst h
    rfl
  | cons c rest ih =>
    intro st news out h
    by_cases hk : hasKey st.parsed c = true
    · rw [procCalls, if_pos hk] at h
      exact ih _ _ _ h
    · cases hp : parse c with
      | raised =>
        simp only [procCalls, if_neg hk, hp] at h
        exact Except.noConfusion h
      | fetchFail =>
        simp only [procCalls, if_neg hk, hp] at h
        exact ih { st with attempts := st.attempts ++ [c] } news out h
      | ok calls =>
        simp only [procCalls, if_neg hk, hp] at h
        exact ih { st with
          parsed := st.parsed ++ [(c, calls)]
          graph := graphAdd st.graph c calls
          attempts := st.attempts ++ [c] } (setAdd news calls) out h

theorem procKeys_rounds (parse : String → ParseOutcome) :
    ∀ (keys : List String) (st : CGState) (news : List String)
      (out : CGState × List String),
      procKeys parse keys st news = .ok out → out.1.rounds = st.rounds := by
  intro keys
  induction keys with
  | nil =>
    intro st news out h
    rw [procKeys, Except.ok.injEq] at h
    subst h
    rfl
  | cons wf rest ih =>
    intro st news out h
    cases hpc : procCalls parse (lookupGraph st.graph wf) st news with
    | error e => rw [procKeys, hpc] at h; cases h
    | ok r =>
      rw [procKeys, hpc] at h
      rw [ih r.1 r.2 out h, procCalls_rounds parse _ _ _ _ hpc]

theorem initLoop_rounds (parse : String → ParseOutcome) :
    ∀ (files : List String) (st st' : CGState),
      initLoop parse files st = .ok st' → st'.rounds = st.rounds := by
  intro files
  induction files with
  | nil =>
    intro st st' h
    rw [initLoop, Except.ok.injEq] at h
    subst h
    rfl
  | cons wf rest ih =>
    intro st st' h
    cases hp : parse wf with
    | raised =>
      simp only [initLoop, hp] at h
      exact Except.noConfusion h
    | fetchFail =>
      simp only [initLoop, hp] at h
      exact ih { st with attempts := st.attempts ++ [wf] } st' h
    | ok calls =>
      simp only [initLoop, hp] at h
      exact ih { st with
        parsed := st.parsed ++ [(wf, calls)]
        graph := graphAdd st.graph wf calls
        attempts := st.attempts ++ [wf] } st' h

theorem roundsGo_rounds (parse : String → ParseOutcome) :
    ∀ (n : Nat) (st st' : CGState), roundsGo parse n st = .ok st' →
      st'.rounds ≤ st.rounds + n := by
  intro n
  induction n with
  | zero =>
    intro st st' h
    rw [roundsGo, Except.ok.injEq] at h
    subst h
    exact Nat.le_refl _
  | succ m ih =>
    intro st st' h
    cases hpk : procKeys parse (st.graph.map Prod.fst) st [] with
    | error e => rw [roundsGo, hpk] at h; cases h
    | ok r =>
      rw [roundsGo, hpk] at h
      have hr : r.1.rounds = st.rounds := procKeys_rounds parse _ _ _ _ hpk
      have h' : (if r.2.isEmpty = true
          then Except.ok { r.1 with rounds := r.1.rounds + 1 }
          else roundsGo parse m { r.1 with rounds := r.1.rounds + 1 }) =
          .ok st' := h
      by_cases hne : r.2.isEmpty = true
      · rw [if_pos hne, Except.ok.injEq] at h'
        subst h'
        simp only [hr]
        omega
      · rw [if_neg hne] at h'
        have := ih _ _ h'
        simp only [hr] at this
        omega

/-- Counterexample to C7: two discovered files `w1` and `w2` both call
`x`, whose parse fails (remote fetch returning `None`); within the single
expansion round, `x` is handed to `parse_workflow_file` once per caller —
the attempt log records `x` twice, so a call-target reference is not
attempted at most once. -/
theorem failing_call_target_attempted_twice :
    build_workflow_call_graph parseTwice ["w1", "w2"] =
      .ok ⟨[("w1", ["x"]), ("w2", ["x"])], [("w1", ["x"]), ("w2", ["x"])],
        ["w1", "w2", "x", "x"], 1⟩ ∧
    parseTwice "x" = .fetchFail ∧
    (["w1", "w2", "x", "x"] : List String).count "x" = 2 :=
  ⟨rfl, rfl, by decide⟩

/-- C7 amended: a reference whose parse succeeds is attempted at most
once across the whole build (it enters the registry on first attempt and
the registry guard blocks re-attempts); only references that fail may be
re-attempted. The expansion executes at most 5 round bodies, and by
construction stops as soon as a round's `new_calls` is empty
(`roundsGo`). -/
theorem call_target_attempted_once_when_ok (parse : String → ParseOutcome)
    (files : List String) (hnd : files.Nodup) (st : CGState)
    (hok : build_workflow_call_graph parse files = .ok st) :
    (∀ r calls, parse r = .ok calls → st.attempts.count r ≤ 1) ∧
    st.rounds ≤ 5 := by
  cases hinit : initLoop parse files ⟨[], [], [], 0⟩ with
  | error e => rw [build_workflow_call_graph, hinit] at hok; cases hok
  | ok st1 =>
    rw [build_workflow_call_graph, hinit] at hok
    have hA0 : AttemptBound parse ⟨[], [], [], 0⟩ := by
      intro r calls _
      exact ⟨by simp, by intro h; cases h⟩
    have hA1 := initLoop_attempts parse files _ st1 hinit hnd
      (by intro f _ hm; cases hm) hA0
    have hA2 := roundsGo_attempts parse 5 st1 st hok hA1
    have hr1 := initLoop_rounds parse files _ st1 hinit
    have hr2 := roundsGo_rounds parse 5 st1 st hok
    refine ⟨fun r calls hr => (hA2 r calls hr).1, ?_⟩
    simp only [hr1] at hr2
    omega

/-- Witness for the amended C7 on the `root → mid → leaf` chain:
`mid` parses successfully and is attempted exactly once; one round body
ran. -/
theorem call_target_attempted_once_witness :
    stChain.attempts.count "mid" ≤ 1 ∧ stChain.rounds ≤ 5 :=
  ⟨(call_target_attempted_once_when_ok parseChain ["root", "mid", "leaf"]
      (by decide) stChain rfl).1 "mid" ["leaf"] rfl,
   (call_target_attempted_once_when_ok parseChain ["root", "mid", "leaf"]
      (by decide) stChain rfl).2⟩

/-! Graph-key closure (the C10 chain). -/

theorem initLoop_closed (parse : String → ParseOutcome)
    (files0 : List String) :
    ∀ (fl : List String) (st st' : CGState), initLoop parse fl st = .ok st' →
      (∀ f ∈ fl, f ∈ files0) → GraphClosed files0 st →
      GraphClosed files0 st' := by
  intro fl
  induction fl with
  | nil =>
    intro st st' h _ hG
    rw [initLoop, Except.ok.injEq] at h
    subst h
    exact hG
  | cons wf rest ih =>
    intro st st' h hsub hG
    cases hp : parse wf with
    | raised =>
      simp only [initLoop, hp] at h
      exact Except.noConfusion h
    | fetchFail =>
      simp only [initLoop, hp] at h
      exact ih _ _ h (fun f hf => hsub f (List.mem_cons_of_mem _ hf)) hG
    | ok calls =>
      simp only [initLoop, hp] at h
      refine ih _ _ h (fun f hf => hsub f (List.mem_cons_of_mem _ hf)) ?_
      intro k hk
      rw [hasKey_graphAdd] at hk
      rcases hk with hk | rfl
      · rcases hG k hk with hf | hex
        · exact Or.inl hf
        · exact Or.inr (called_mono_graphAdd hex)
      · exact Or.inl (hsub k (List.mem_cons_self _ _))

theorem procCalls_closed (parse : String → ParseOutcome)
    (files0 : List String) :
    ∀ (cs : List String) (st : CGState) (news : List String)
      (out : CGState × List String),
      procCalls parse cs st news = .ok out →
      (∀ c ∈ cs, ∃ p ∈ st.graph, c ∈ p.2) → GraphClosed files0 st →
      GraphClosed files0 out.1 := by
  intro cs
  induction cs with
  | nil =>
    intro st news out h _ hG
    rw [procCalls, Except.ok.injEq] at h
    subst h
    exact hG
  | cons c rest ih =>
    intro st news out h hcs hG
    by_cases hk : hasKey st.parsed c = true
    · rw [procCalls, if_pos hk] at h
      exact ih _ _ _ h (fun c' hc' => hcs c' (List.mem_cons_of_mem _ hc')) hG
    · cases hp : parse c with
      | raised =>
        simp only [procCalls, if_neg hk, hp] at h
        exact Except.noConfusion h
      | fetchFail =>
        simp only [procCalls, if_neg hk, hp] at h
        exact ih _ _ _ h (fun c' hc' => hcs c' (List.mem_cons_of_mem _ hc')) hG
      | ok calls =>
        simp only [procCalls, if_neg hk, hp] at h
        refine ih _ _ _ h ?_ ?_
        · intro c' hc'
          exact called_mono_graphAdd (hcs c' (List.mem_cons_of_mem _ hc'))
        · intro k hkk
          rw [hasKey_graphAdd] at hkk
          rcases hkk with hkk | rfl
          · rcases hG k hkk with hf | hex
            · exact Or.inl hf
            · exact Or.inr (called_mono_graphAdd hex)
          · exact Or.inr (called_mono_graphAdd (hcs k (List.mem_cons_self _ _)))

theorem procKeys_closed (parse : String → ParseOutcome)
    (files0 : List String) :
    ∀ (keys : List String) (st : CGState) (news : List String)
      (out : CGState × List String),
      procKeys parse keys st news = .ok out → GraphClosed files0 st →
      GraphClosed files0 out.1 := by
  intro keys
  induction keys with
  | nil =>
    intro st news out h hG
    rw [procKeys, Except.ok.injEq] at h
    subst h
    exact hG
  | cons wf rest ih =>
    intro st news out h hG
    cases hpc : procCalls parse (lookupGraph st.graph wf) st news with
    | error e => rw [procKeys, hpc] at h; cases h
    | ok r =>
      rw [procKeys, hpc] at h
      exact ih r.1 r.2 out h
        (procCalls_closed parse files0 _ _ _ _ hpc
          (fun c hc => mem_lookupGraph hc) hG)

theorem roundsGo_closed (parse : String → ParseOutcome)
    (files0 : List String) :
    ∀ (n : Nat) (st st' : CGState), roundsGo parse n st = .ok st' →
      GraphClosed files0 st → GraphClosed files0 st' := by
  intro n
  induction n with
  | zero =>
    intro st st' h hG
    rw [roundsGo, Except.ok.injEq] at h
    subst h
    exact hG
  | succ m ih =>
    intro st st' h hG
    cases hpk : procKeys parse (st.graph.map Prod.fst) st [] with
    | error e => rw [roundsGo, hpk] at h; cases h
    | ok r =>
      rw [roundsGo, hpk] at h
      have hG1 : GraphClosed files0 r.1 :=
        procKeys_closed parse files0 _ _ _ _ hpk hG
      have h' : (if r.2.isEmpty = true
          then Except.ok { r.1 with rounds := r.1.rounds + 1 }
          else roundsGo parse m { r.1 with rounds := r.1.rounds + 1 }) =
          .ok st' := h
      by_cases hne : r.2.isEmpty = true
      · rw [if_pos hne, Except.ok.injEq] at h'
        subst h'
        exact hG1
      · rw [if_neg hne] at h'
        exact ih _ _ h' hG1

/-- C10: a call graph produced by `build_workflow_call_graph` never yields
orphans: every key of the graph is a discovered file or appears in some
key's call set (keys are only created for discovered files or for
successfully parsed call targets), so `find_roots_and_orphans` applied to
that graph and the same discovered-file list returns an empty orphan
list. -/
theorem built_graph_has_no_orphans (parse : String → ParseOutcome)
    (files : List String) (st : CGState)
    (hok : build_workflow_call_graph parse files = .ok st) :
    (find_roots_and_orphans st.graph files).2 = [] := by
  have hG : GraphClosed files st := by
    cases hinit : initLoop parse files ⟨[], [], [], 0⟩ with
    | error e => rw [build_workflow_call_graph, hinit] at hok; cases hok
    | ok st1 =>
      rw [build_workflow_call_graph, hinit] at hok
      have h0 : GraphClosed files ⟨[], [], [], 0⟩ := by
        intro k hk
        simp [hasKey] at hk
      exact roundsGo_closed parse files 5 st1 st hok
        (initLoop_closed parse files files _ st1 hinit (fun f hf => hf) h0)
  show orphansOf st.graph files = []
  rw [orphansOf, List.filter_eq_nil_iff]
  intro k hk hpred
  rw [Bool.and_eq_true, Bool.not_eq_true', Bool.not_eq_true',
    contains_eq_false, contains_eq_false] at hpred
  obtain ⟨hnc, hnr⟩ := hpred
  rcases hG k (hasKey_iff.mpr hk) with hf | ⟨p, hp, hkc⟩
  · refine hnr (List.mem_filter.mpr ⟨hf, ?_⟩)
    rw [Bool.not_eq_true', contains_eq_false]
    exact hnc
  · exact hnc (List.mem_flatten.mpr ⟨p.2, List.mem_map_of_mem _ hp, hkc⟩)

/-- Witness for C10 on the Scenario D chain. -/
theorem built_graph_has_no_orphans_witness :
    (find_roots_and_orphans stChain.graph ["root", "mid", "leaf"]).2 = [] :=
  built_graph_has_no_orphans parseChain ["root", "mid", "leaf"] stChain rfl

/-- C9: `find_roots_and_orphans` returns as roots exactly the discovered
files not occurring in the union of all call sets, and as orphans exactly
the call-graph keys in neither that union nor the discovered files;
consequently a discovered file is a root exactly when it is not called,
and a non-discovered call-graph key is an orphan exactly when it is not
called. -/
theorem find_roots_and_orphans_spec (cg : List (String × List String))
    (files : List String) :
    (∀ x : String, x ∈ (find_roots_and_orphans cg files).1 ↔
      x ∈ files ∧ x ∉ (cg.map Prod.snd).flatten) ∧
    (∀ x : String, x ∈ (find_roots_and_orphans cg files).2 ↔
      x ∈ cg.map Prod.fst ∧ x ∉ (cg.map Prod.snd).flatten ∧ x ∉ files) ∧
    (∀ x ∈ files, (x ∈ (find_roots_and_orphans cg files).1 ↔
      x ∉ (cg.map Prod.snd).flatten)) ∧
    (∀ x ∈ cg.map Prod.fst, x ∉ files →
      (x ∈ (find_roots_and_orphans cg files).2 ↔
        x ∉ (cg.map Prod.snd).flatten)) := by
  have hroots : ∀ x : String, x ∈ rootsOf cg files ↔
      x ∈ files ∧ x ∉ (cg.map Prod.snd).flatten := by
    intro x
    rw [rootsOf, List.mem_filter, Bool.not_eq_true', contains_eq_false]
    rfl
  have horph : ∀ x : String, x ∈ orphansOf cg files ↔
      x ∈ cg.map Prod.fst ∧ x ∉ (cg.map Prod.snd).flatten ∧ x ∉ files := by
    intro x
    rw [orphansOf, List.mem_filter]
    constructor
    · rintro ⟨hk, hb⟩
      rw [Bool.and_eq_true, Bool.not_eq_true', Bool.not_eq_true',
        contains_eq_false, contains_eq_false] at hb
      exact ⟨hk, hb.1, fun hf => hb.2 ((hroots x).mpr ⟨hf, hb.1⟩)⟩
    · rintro ⟨hk, h1, h2⟩
      refine ⟨hk, ?_⟩
      rw [Bool.and_eq_true, Bool.not_eq_true', Bool.not_eq_true',
        contains_eq_false, contains_eq_false]
      exact ⟨h1, fun hr => h2 ((hroots x).mp hr).1⟩
  refine ⟨hroots, horph, ?_, ?_⟩
  · intro x hf
    show x ∈ rootsOf cg files ↔ x ∉ (cg.map Prod.snd).flatten
    rw [hroots x]
    exact ⟨fun h => h.2, fun h => ⟨hf, h⟩⟩
  · intro x hk hnf
    show x ∈ orphansOf cg files ↔ x ∉ (cg.map Prod.snd).flatten
    rw [horph x]
    exact ⟨fun h => h.2.1, fun h => ⟨hk, h, hnf⟩⟩

/-- Witness for C9 on the Scenario D call graph: `root` is a root (it is
discovered and uncalled), and the orphan characterization instantiated at
`mid`. -/
theorem find_roots_and_orphans_spec_witness :
    ("root" ∈ (find_roots_and_orphans cgChain ["root", "mid", "leaf"]).1 ↔
      "root" ∈ ["root", "mid", "leaf"] ∧
        "root" ∉ (cgChain.map Prod.snd).flatten) ∧
    ("mid" ∈ (find_roots_and_orphans cgChain ["root", "mid", "leaf"]).2 ↔
      "mid" ∈ cgChain.map Prod.fst ∧
        "mid" ∉ (cgChain.map Prod.snd).flatten ∧
        "mid" ∉ ["root", "mid", "leaf"]) :=
  ⟨(find_roots_and_orphans_spec cgChain ["root", "mid", "leaf"]).1 "root",
   (find_roots_and_orphans_spec cgChain ["root", "mid", "leaf"]).2.1 "mid"⟩

/-- C8 (evaluation at the failing input): Scenario E's remote reference
`org/repo/.github/workflows/build.yml@v2` ends in `@v2`, so the source's
guard `uses.endswith('.yml')` is false and `extract_called_workflows`
classifies it as not-a-call — the call set stays empty — contrary to the
documented remote classification; `actions/checkout@v3` is (consistently)
not a call. The third conjunct shows the remote-parsing branch the guard
was meant to protect does produce the structured remote reference when
the revision itself happens to end in `.yml`, exhibiting the guard as the
slip. -/
theorem remote_uses_not_classified :
    pyEndsWith usesRemote ".yml" = false ∧
    extract_called_workflows id id [some usesRemote, some usesAction] =
      .ok [] ∧
    classifyUses id id "org/repo/.github/workflows/build.yml@v1.yml" =
      .ok (some "remote::org/repo::.github/workflows/build.yml@v1.yml") :=
  ⟨rfl, rfl, rfl⟩

end GhaDoc
